import Mathlib

/-!
Verification of the project-ignis relay server (`src/server.js`).

The file shallowly embeds the two pieces of logic of the repository:

* the latest-artifact resolver `getLatestCsvUrl` (server.js lines 9-20):
  scan a directory-listing body for occurrences of the regular expression
  `href="(focos_10min_\d{8}_\d{4}\.csv)"`, take the last match and resolve
  it against the base listing URL;
* the delimited-record parser inside the `/fires/recents` handler
  (server.js lines 28-34): split the body on `"\n"`, split every line on
  `";"`, shift the first row off as the header, keep exactly the rows whose
  value count equals the header field count, and turn each kept row into a
  JavaScript object via `Object.fromEntries`.

Text is modelled as `List Char`.  JavaScript objects are modelled as
association lists with pairwise distinct keys in insertion order, built by
`fromEntries`, which reproduces the JavaScript assignment semantics: a
repeated key keeps its first position and receives the last value.
Network effects are passed as explicit `Except`-valued oracles to the
handler model `firesRecents`.
-/

namespace Ignis

/-- Text, modelled as a list of characters. -/
abbrev Chars := List Char

/-- A JavaScript object produced by `Object.fromEntries`: an association
list whose keys are pairwise distinct, in insertion order. -/
abbrev Record := List (Chars × Chars)

/-! ### Constants of server.js -/

/-- The base listing URL `LIST_URL` (server.js line 7). -/
def listUrl : Chars :=
  "https://dataserver-coids.inpe.br/queimadas/queimadas/focos/csv/10min/".toList

/-- The literal `href="` that opens every occurrence of the filename
regular expression in server.js line 12. -/
def hrefLit : Chars := "href=\"".toList

/-- The fixed leading part of the captured filename. -/
def namePre : Chars := "focos_10min_".toList

/-- The literal consumed before the first digit run: `href="focos_10min_`. -/
def hrefPre : Chars := "href=\"focos_10min_".toList

/-- The fixed trailing part of the captured filename. -/
def csvExt : Chars := ".csv".toList

/-- The literal consumed after the second digit run: `.csv"`. -/
def csvTail : Chars := ".csv\"".toList

/-- Message of the error thrown when no filename matches (server.js line 14). -/
def noCsvMsg : Chars := "Nenhum CSV encontrado no diretório do INPE.".toList

/-- The static source label of the success envelope (server.js line 37). -/
def fonteMsg : Chars := "INPE - Queimadas (últimos 10 min)".toList

/-- The body of the 500 response produced by the request-boundary catch
(server.js line 44). -/
def errMsg : Chars := "Falha ao buscar CSV do INPE".toList

/-! ### The latest-artifact resolver -/

/-- Consume an expected literal from the front of the input; `none` when the
input does not start with the literal. -/
def stripLit : Chars → Chars → Option Chars
  | [], s => some s
  | _ :: _, [] => none
  | c :: cs, d :: ds => if c = d then stripLit cs ds else none

/-- Consume exactly `n` decimal digits (the `\d{n}` part of the regular
expression) from the front of the input. -/
def takeDigits : Nat → Chars → Option (Chars × Chars)
  | 0, s => some ([], s)
  | _ + 1, [] => none
  | n + 1, c :: cs =>
    if c.isDigit then
      match takeDigits n cs with
      | none => none
      | some (d, r) => some (c :: d, r)
    else none

/-- Try to match the regular expression
`href="(focos_10min_\d{8}_\d{4}\.csv)"` at the very start of the input.
On success, return the captured filename together with the input remaining
after the closing quote (the position the global regex resumes from). -/
def tryMatch (s : Chars) : Option (Chars × Chars) :=
  match stripLit hrefPre s with
  | none => none
  | some s1 =>
    match takeDigits 8 s1 with
    | none => none
    | some (d8, s2) =>
      match s2 with
      | [] => none
      | c :: s3 =>
        if c = '_' then
          match takeDigits 4 s3 with
          | none => none
          | some (d4, s4) =>
            match stripLit csvTail s4 with
            | none => none
            | some s5 => some (namePre ++ d8 ++ '_' :: (d4 ++ csvExt), s5)
        else none

/-- Fuelled scanner: the non-overlapping, leftmost-first global regex scan
of `String.prototype.matchAll`.  On a successful match the scan resumes
after the match; otherwise it advances one character.  The fuel is only a
termination device; `scanMatches` supplies enough of it. -/
def scanGo : Nat → Chars → List Chars
  | 0, _ => []
  | _ + 1, [] => []
  | fuel + 1, c :: cs =>
    match tryMatch (c :: cs) with
    | some (cap, rest) => cap :: scanGo fuel rest
    | none => scanGo fuel cs

/-- All captured filenames of
`[...html.matchAll(/href="(focos_10min_\d{8}_\d{4}\.csv)"/g)].map(m => m[1])`
(server.js line 12), in order of appearance. -/
def scanMatches (s : Chars) : List Chars := scanGo s.length s

/-- The pure part of `getLatestCsvUrl` (server.js lines 9-20), applied to
the already-fetched listing body: throw when there is no match, otherwise
take the last match and resolve it against `LIST_URL`.  Since `LIST_URL`
ends in `/` and the filename is a plain relative name,
`new URL(latestFile, LIST_URL).toString()` is exactly the concatenation of
the two. -/
def getLatestCsvUrl (html : Chars) : Except Chars Chars :=
  match (scanMatches html).getLast? with
  | none => Except.error noCsvMsg
  | some f => Except.ok (listUrl ++ f)

/-! ### The delimited-record parser -/

/-- `String.prototype.split` with a one-character separator: the empty
string yields `[""]`, and every separator occurrence opens a new chunk. -/
def splitOnChar (sep : Char) : Chars → List Chars
  | [] => [[]]
  | c :: cs =>
    match splitOnChar sep cs with
    | [] => [[]]
    | w :: ws => if c = sep then [] :: w :: ws else (c :: w) :: ws

/-- `Array.prototype.join` with a one-character separator. -/
def joinSep (sep : Char) : List Chars → Chars
  | [] => []
  | [w] => w
  | w :: ws => w ++ sep :: joinSep sep ws

/-- JavaScript object assignment `obj[k] = v`: an existing key keeps its
position and receives the new value; a fresh key is appended at the end. -/
def setKey : Record → Chars → Chars → Record
  | [], k, v => [(k, v)]
  | p :: ps, k, v => if p.1 = k then (k, v) :: ps else p :: setKey ps k v

/-- One step of `Object.fromEntries`: assign the pair into the object. -/
def insEntry (acc : Record) (p : Chars × Chars) : Record := setKey acc p.1 p.2

/-- `Object.fromEntries(pairs)` (server.js line 33): assign the key/value
pairs left to right into an initially empty object. -/
def fromEntries (ps : List (Chars × Chars)) : Record := ps.foldl insEntry []

/-- Property access `obj[k]`: the value stored at the (unique) occurrence
of the key, `none` when the key is absent. -/
def lookupV : Record → Chars → Option Chars
  | [], _ => none
  | p :: ps, k => if p.1 = k then some p.2 else lookupV ps k

/-- `Object.keys`: the keys of the object in insertion order. -/
def keysOf (r : Record) : List Chars := r.map Prod.fst

/-- The value attached to the last pair carrying the given key, if any. -/
def lastVal : List (Chars × Chars) → Chars → Option Chars
  | [], _ => none
  | p :: ps, k =>
    match lastVal ps k with
    | some v => some v
    | none => if p.1 = k then some p.2 else none

/-- Append a key to a key list unless it is already present. -/
def addKey (ks : List Chars) (k : Chars) : List Chars :=
  if k ∈ ks then ks else ks ++ [k]

/-- First-occurrence deduplication of a key list: the keys of the object
built from pairs with those keys. -/
def dedupKeys (ks : List Chars) : List Chars := ks.foldl addKey []

/-- `csv.split("\n")` (server.js line 28). -/
def linesOf (csv : Chars) : List Chars := splitOnChar '\n' csv

/-- `csv.split("\n").map(line => line.split(";"))` (server.js line 28). -/
def rowsOf (csv : Chars) : List (List Chars) := (linesOf csv).map (splitOnChar ';')

/-- `rows.shift()` (server.js line 29): the first row, which always exists
because `split` never returns an empty array. -/
def headersOf (csv : Chars) : List Chars := (rowsOf csv).headI

/-- The rows remaining after the header has been shifted off. -/
def bodyOf (csv : Chars) : List (List Chars) := (rowsOf csv).tail

/-- The parser of the `/fires/recents` handler (server.js lines 28-34):
keep exactly the rows whose value count equals the header field count and
turn each kept row into an object pairing header names with row values by
position.  The function is total: no input makes this code path throw. -/
def parse (csv : Chars) : List Record :=
  ((bodyOf csv).filter (fun r => r.length = (headersOf csv).length)).map
    (fun row => fromEntries ((headersOf csv).zip row))

/-- Property access with the JavaScript-object read defaulted; on keys the
object holds, the default is never used. -/
def getValD (r : Record) (k : Chars) : Chars := (lookupV r k).getD []

/-- Modelled from the spec: serialization of a record sequence back to
delimited text using the original header — the header line, then one line
per record with the values joined by the delimiter in header order
(spec §8, round-trip property).  The repository has no serializer of its
own. -/
def serializeT (hs : List Chars) (rs : List Record) : Chars :=
  joinSep '\n' (joinSep ';' hs :: rs.map (fun r => joinSep ';' (hs.map (getValD r))))

/-! ### The request handler -/

/-- The success envelope of `/fires/recents` (server.js lines 36-41). -/
structure SuccessBody where
  fonte : Chars
  arquivo : Chars
  total_registros : Nat
  dados : List Record
deriving DecidableEq

/-- A response of the handler: either the JSON success envelope or the 500
error body of the request-boundary catch. -/
inductive HttpResp where
  | json200 (body : SuccessBody)
  | json500 (error : Chars)
deriving DecidableEq

/-- The `/fires/recents` handler (server.js lines 22-46).  The two network
reads are passed in as oracles: `fl` is the result of fetching `LIST_URL`
(inside `getLatestCsvUrl`), `fc url` the result of fetching the resolved
CSV URL; an `Except.error` models a rejected promise.  The second
component is the trace of URLs fetched, in order, so that absence of
retries is observable.  Every failure is caught by the single `try/catch`
and turned into the fixed 500 body. -/
def firesRecents (fl : Except Chars Chars) (fc : Chars → Except Chars Chars) :
    HttpResp × List Chars :=
  match fl with
  | Except.error _ => (HttpResp.json500 errMsg, [listUrl])
  | Except.ok html =>
    match getLatestCsvUrl html with
    | Except.error _ => (HttpResp.json500 errMsg, [listUrl])
    | Except.ok url =>
      match fc url with
      | Except.error _ => (HttpResp.json500 errMsg, [listUrl, url])
      | Except.ok csv =>
        (HttpResp.json200 ⟨fonteMsg, url, (parse csv).length, parse csv⟩, [listUrl, url])

/-! ### Spec-level pattern predicates -/

/-- A filename of the shape `focos_10min_DDDDDDDD_DDDD.csv` — the capture
group of the filename pattern. -/
def isPatternInstance (cap : Chars) : Prop :=
  ∃ d8 d4 : Chars,
    d8.length = 8 ∧ d4.length = 4 ∧
    (∀ c ∈ d8, c.isDigit = true) ∧ (∀ c ∈ d4, c.isDigit = true) ∧
    cap = namePre ++ d8 ++ '_' :: (d4 ++ csvExt)

/-- The listing body contains at least one substring matching the filename
pattern `href="focos_10min_DDDDDDDD_DDDD.csv"`. -/
def containsPattern (s : Chars) : Prop :=
  ∃ pre cap post : Chars,
    isPatternInstance cap ∧ s = pre ++ (hrefLit ++ (cap ++ '"' :: post))

/-! ### Concrete sample inputs used by witnesses and counterexamples -/

/-- A sample listing body with two matching filenames (spec §8 example). -/
def exBody : Chars :=
  "<a href=\"focos_10min_20251006_1200.csv\">x</a> href=\"focos_10min_20251006_1210.csv\"".toList

/-- A minimal listing body with a single matching filename. -/
def exListing : Chars := "href=\"focos_10min_20251006_1200.csv\"".toList

/-- The filename occurring in `exListing`. -/
def exFile : Chars := "focos_10min_20251006_1200.csv".toList

/-- A delimited input whose header repeats a field name. -/
def dupCsv : Chars := "a;a\n1;2".toList

/-- The delimited input of the spec §8 parser example. -/
def okCsv : Chars := "a;b;c\n1;2;3\nbad;row\n4;5;6\n".toList

/-- A small well-formed delimited input. -/
def pairCsv : Chars := "a;b\n1;2".toList

/-- The record parsed from the single data row of `pairCsv`. -/
def pairRec : Record := [("a".toList, "1".toList), ("b".toList, "2".toList)]

/-- The first entry of `pairRec`. -/
def pairEntry : Chars × Chars := ("a".toList, "1".toList)

/-! ### Lemmas about the resolver scan -/

theorem stripLit_self (p s : Chars) : stripLit p (p ++ s) = some s := by
  induction p with
  | nil => simp [stripLit]
  | cons c cs ih => simp [stripLit, ih]

theorem stripLit_sound (p : Chars) :
    ∀ s r : Chars, stripLit p s = some r → s = p ++ r := by
  induction p with
  | nil => intro s r h; simpa [stripLit] using h
  | cons c cs ih =>
    intro s r h
    cases s with
    | nil => simp [stripLit] at h
    | cons d ds =>
      simp only [stripLit] at h
      split at h
      · next heq => subst heq; simpa using ih ds r h
      · exact absurd h (by simp)

theorem takeDigits_append (d x : Chars) (hd : ∀ c ∈ d, c.isDigit = true) :
    takeDigits d.length (d ++ x) = some (d, x) := by
  induction d with
  | nil => simp [takeDigits]
  | cons c cs ih =>
    have hc : c.isDigit = true := hd c (by simp)
    have ih' := ih (fun c hcm => hd c (by simp [hcm]))
    simp [takeDigits, hc, ih']

theorem takeDigits_sound (n : Nat) :
    ∀ s d r : Chars, takeDigits n s = some (d, r) →
      s = d ++ r ∧ d.length = n ∧ ∀ c ∈ d, c.isDigit = true := by
  induction n with
  | zero =>
    intro s d r h
    simp only [takeDigits, Option.some.injEq, Prod.mk.injEq] at h
    obtain ⟨hd, hr⟩ := h
    subst hd; subst hr; simp
  | succ n ih =>
    intro s d r h
    cases s with
    | nil => simp [takeDigits] at h
    | cons c cs =>
      simp only [takeDigits] at h
      split at h
      · next hc =>
        cases hm : takeDigits n cs with
        | none => rw [hm] at h; simp at h
        | some p =>
          obtain ⟨d0, r0⟩ := p
          rw [hm] at h
          simp only [Option.some.injEq, Prod.mk.injEq] at h
          obtain ⟨hd, hr⟩ := h
          obtain ⟨h1, h2, h3⟩ := ih cs d0 r0 hm
          subst hd; subst hr; subst h1
          refine ⟨by simp, by simp [h2], ?_⟩
          intro a ha
          rcases List.mem_cons.mp ha with h | h
          · subst h; exact hc
          · exact h3 a h
      · exact absurd h (by simp)

theorem tryMatch_sound (s cap rest : Chars) (h : tryMatch s = some (cap, rest)) :
    isPatternInstance cap ∧ s = hrefLit ++ (cap ++ '"' :: rest) := by
  unfold tryMatch at h
  split at h
  · simp at h
  next s1 h1 =>
  split at h
  · simp at h
  next d8 s2 h2 =>
  split at h
  · simp at h
  next c s3 =>
  split at h
  case isFalse => simp at h
  next hc =>
  subst hc
  split at h
  · simp at h
  next d4 s4 h4 =>
  split at h
  · simp at h
  next s5 h5 =>
  simp only [Option.some.injEq, Prod.mk.injEq] at h
  obtain ⟨hcap, hrest⟩ := h
  obtain ⟨e1, e2, e3⟩ := takeDigits_sound 8 s1 d8 _ h2
  obtain ⟨e4, e5, e6⟩ := takeDigits_sound 4 s3 d4 s4 h4
  have e0 := stripLit_sound hrefPre s s1 h1
  have e7 := stripLit_sound csvTail s4 s5 h5
  subst hcap; subst hrest
  constructor
  · exact ⟨d8, d4, e2, e5, e3, e6, rfl⟩
  · subst e0; subst e1; subst e4; subst e7
    have hh : hrefPre = hrefLit ++ namePre := by decide
    have ht : csvTail = csvExt ++ ['"'] := by decide
    simp [hh, ht]

theorem tryMatch_complete (d8 d4 rest : Chars)
    (h8 : d8.length = 8) (hd8 : ∀ c ∈ d8, c.isDigit = true)
    (h4 : d4.length = 4) (hd4 : ∀ c ∈ d4, c.isDigit = true) :
    tryMatch (hrefLit ++ ((namePre ++ d8 ++ '_' :: (d4 ++ csvExt)) ++ '"' :: rest)) =
      some (namePre ++ d8 ++ '_' :: (d4 ++ csvExt), rest) := by
  have hh : hrefLit ++ ((namePre ++ d8 ++ '_' :: (d4 ++ csvExt)) ++ '"' :: rest) =
      hrefPre ++ (d8 ++ '_' :: (d4 ++ (csvTail ++ rest))) := by
    have hh1 : hrefPre = hrefLit ++ namePre := by decide
    have ht : csvTail = csvExt ++ ['"'] := by decide
    simp [hh1, ht]
  rw [hh]
  have t8 : takeDigits 8 (d8 ++ '_' :: (d4 ++ (csvTail ++ rest))) =
      some (d8, '_' :: (d4 ++ (csvTail ++ rest))) := by
    rw [← h8]; exact takeDigits_append d8 _ hd8
  have t4 : takeDigits 4 (d4 ++ (csvTail ++ rest)) = some (d4, csvTail ++ rest) := by
    rw [← h4]; exact takeDigits_append d4 _ hd4
  simp [tryMatch, stripLit_self, t8, t4]

theorem tryMatch_length (s cap rest : Chars) (h : tryMatch s = some (cap, rest)) :
    rest.length < s.length := by
  have hs := (tryMatch_sound s cap rest h).2
  have := congrArg List.length hs
  simp only [List.length_append, List.length_cons] at this
  omega

theorem containsPattern_ne_nil : ¬ containsPattern ([] : Chars) := by
  rintro ⟨pre, cap, post, _, he⟩
  have hlen := congrArg List.length he
  have h6 : hrefLit.length = 6 := by decide
  simp only [List.length_nil, List.length_append, List.length_cons] at hlen
  omega

theorem pattern_ne_nil (cap : Chars) (h : isPatternInstance cap) : cap ≠ [] := by
  obtain ⟨d8, d4, _, _, _, _, hcap⟩ := h
  intro hnil
  rw [hnil] at hcap
  have hlen := congrArg List.length hcap
  have h12 : namePre.length = 12 := by decide
  simp only [List.length_nil, List.length_append, List.length_cons] at hlen
  omega

theorem scanGo_sound (fuel : Nat) :
    ∀ s cap : Chars, cap ∈ scanGo fuel s →
      isPatternInstance cap ∧ ∃ pre post, s = pre ++ (hrefLit ++ (cap ++ '"' :: post)) := by
  induction fuel with
  | zero => intro s cap h; simp [scanGo] at h
  | succ n ih =>
    intro s cap h
    cases s with
    | nil => simp [scanGo] at h
    | cons c cs =>
      simp only [scanGo] at h
      split at h
      next cap0 rest hm =>
        rcases List.mem_cons.mp h with hcap | hmem
        · subst hcap
          obtain ⟨hp, he⟩ := tryMatch_sound _ _ _ hm
          exact ⟨hp, [], rest, by simpa using he⟩
        · obtain ⟨hp, pre, post, he⟩ := ih rest cap hmem
          obtain ⟨_, he0⟩ := tryMatch_sound _ _ _ hm
          refine ⟨hp, hrefLit ++ (cap0 ++ '"' :: pre), post, ?_⟩
          rw [he0, he]
          simp
      next hm =>
        obtain ⟨hp, pre, post, he⟩ := ih cs cap h
        exact ⟨hp, c :: pre, post, by simp [he]⟩

theorem scanGo_complete (fuel : Nat) :
    ∀ s : Chars, s.length ≤ fuel → containsPattern s → scanGo fuel s ≠ [] := by
  induction fuel with
  | zero =>
    intro s hf hc
    have hs : s = [] := List.length_eq_zero.mp (Nat.le_zero.mp hf)
    rw [hs] at hc
    exact absurd hc containsPattern_ne_nil
  | succ n ih =>
    intro s hf hc
    cases s with
    | nil => exact absurd hc containsPattern_ne_nil
    | cons c cs =>
      simp only [scanGo]
      split
      · exact List.cons_ne_nil _ _
      next hm =>
        obtain ⟨pre, cap, post, hp, he⟩ := hc
        cases pre with
        | nil =>
          obtain ⟨d8, d4, h8, h4, hd8, hd4, hcap⟩ := hp
          have hcomp := tryMatch_complete d8 d4 post h8 hd8 h4 hd4
          have he' : c :: cs =
              hrefLit ++ ((namePre ++ d8 ++ '_' :: (d4 ++ csvExt)) ++ '"' :: post) := by
            rw [he, hcap]; simp
          rw [← he'] at hcomp
          rw [hm] at hcomp
          exact absurd hcomp (by simp)
        | cons p pre' =>
          have hc' : c = p ∧ cs = pre' ++ (hrefLit ++ (cap ++ '"' :: post)) := by
            have := he
            simp only [List.cons_append] at this
            exact ⟨List.head_eq_of_cons_eq this, List.tail_eq_of_cons_eq this⟩
          apply ih cs (by simpa using Nat.le_of_succ_le_succ hf)
          exact ⟨pre', cap, post, hp, hc'.2⟩

theorem scanMatches_sound (s cap : Chars) (h : cap ∈ scanMatches s) :
    isPatternInstance cap ∧ ∃ pre post, s = pre ++ (hrefLit ++ (cap ++ '"' :: post)) :=
  scanGo_sound s.length s cap h

theorem scanMatches_ne_nil (s : Chars) (h : containsPattern s) : scanMatches s ≠ [] :=
  scanGo_complete s.length s (Nat.le_refl _) h

theorem scanMatches_empty_of_no_pattern (s : Chars) (h : ¬ containsPattern s) :
    scanMatches s = [] := by
  by_contra hne
  obtain ⟨cap, hcap⟩ := List.exists_mem_of_ne_nil _ hne
  obtain ⟨hp, pre, post, he⟩ := scanMatches_sound s cap hcap
  exact h ⟨pre, cap, post, hp, he⟩

/-! ### Claim C1 and C6: the latest-artifact resolver -/

/-- C1: for every directory-listing body containing at least one substring
matching `href="focos_10min_DDDDDDDD_DDDD.csv"`, the resolver returns the
last-appearing match in document order, resolved against the base listing
URL into an absolute URL — the base directory URL followed by the matched
filename.  `scanMatches` is the in-order list of non-overlapping matches of
the filename pattern; every element is a genuine occurrence (soundness is
part of the statement), and the resolver succeeds with the base URL
concatenated with the last element. -/
theorem resolver_returns_last_match (html : Chars) (h : containsPattern html) :
    ∃ f, (scanMatches html).getLast? = some f ∧
      isPatternInstance f ∧
      (∃ pre post, html = pre ++ (hrefLit ++ (f ++ '"' :: post))) ∧
      getLatestCsvUrl html = Except.ok (listUrl ++ f) := by
  have hne := scanMatches_ne_nil html h
  have hl := List.getLast?_eq_getLast_of_ne_nil hne
  have hmem : (scanMatches html).getLast hne ∈ scanMatches html := List.getLast_mem hne
  obtain ⟨hp, pre, post, he⟩ := scanMatches_sound html _ hmem
  refine ⟨(scanMatches html).getLast hne, hl, hp, ⟨pre, post, he⟩, ?_⟩
  simp [getLatestCsvUrl, hl]

/-- Concrete pattern occurrence inside `exBody`. -/
theorem exBody_contains : containsPattern exBody :=
  ⟨"<a ".toList, "focos_10min_20251006_1200.csv".toList,
    ">x</a> href=\"focos_10min_20251006_1210.csv\"".toList,
    ⟨"20251006".toList, "1200".toList, by decide, by decide, by decide, by decide, by decide⟩,
    by decide⟩

theorem resolver_returns_last_match_witness :
    containsPattern exBody ∧
    ∃ f, (scanMatches exBody).getLast? = some f ∧
      isPatternInstance f ∧
      (∃ pre post, exBody = pre ++ (hrefLit ++ (f ++ '"' :: post))) ∧
      getLatestCsvUrl exBody = Except.ok (listUrl ++ f) :=
  ⟨exBody_contains, resolver_returns_last_match exBody exBody_contains⟩

/-- C6: for every directory-listing body in which zero substrings match the
filename pattern (including the empty body), the resolver fails with the
no-artifacts error (the thrown
`Error("Nenhum CSV encontrado no diretório do INPE.")`, the code's
realization of `NoArtifactsFoundError`) and returns no URL. -/
theorem resolver_no_match_error (html : Chars) (h : ¬ containsPattern html) :
    getLatestCsvUrl html = Except.error noCsvMsg := by
  have hempty := scanMatches_empty_of_no_pattern html h
  simp [getLatestCsvUrl, hempty]

theorem resolver_no_match_error_witness :
    ¬ containsPattern ([] : Chars) ∧ getLatestCsvUrl [] = Except.error noCsvMsg :=
  ⟨containsPattern_ne_nil, resolver_no_match_error [] containsPattern_ne_nil⟩

/-! ### Lemmas about splitting and joining -/

theorem splitOnChar_ne_nil (sep : Char) (s : Chars) : splitOnChar sep s ≠ [] := by
  cases s with
  | nil => simp [splitOnChar]
  | cons c cs =>
    simp only [splitOnChar]
    split
    · simp
    · split <;> simp

theorem split_sep_not_mem (sep : Char) (s : Chars) :
    ∀ w ∈ splitOnChar sep s, sep ∉ w := by
  induction s with
  | nil =>
    intro w hw
    simp only [splitOnChar, List.mem_singleton] at hw
    subst hw; simp
  | cons c cs ih =>
    intro w hw
    simp only [splitOnChar] at hw
    split at hw
    · simp only [List.mem_singleton] at hw; subst hw; simp
    next w0 ws hs =>
      split at hw
      next hc =>
        rcases List.mem_cons.mp hw with h | h
        · subst h; simp
        · exact ih w (by rw [hs]; exact h)
      next hc =>
        rcases List.mem_cons.mp hw with h | h
        · subst h
          intro hmem
          rcases List.mem_cons.mp hmem with h' | h'
          · exact hc h'.symm
          · exact ih w0 (by rw [hs]; exact List.mem_cons_self w0 ws) h'
        · exact ih w (by rw [hs]; exact List.mem_cons.mpr (Or.inr h))

theorem split_chars_sub (sep : Char) (s : Chars) :
    ∀ w ∈ splitOnChar sep s, ∀ c ∈ w, c ∈ s := by
  induction s with
  | nil =>
    intro w hw
    simp only [splitOnChar, List.mem_singleton] at hw
    subst hw; simp
  | cons c cs ih =>
    intro w hw a ha
    simp only [splitOnChar] at hw
    split at hw
    · simp only [List.mem_singleton] at hw; subst hw; simp at ha
    next w0 ws hs =>
      split at hw
      next hc =>
        rcases List.mem_cons.mp hw with h | h
        · subst h; simp at ha
        · exact List.mem_cons.mpr (Or.inr (ih w (by rw [hs]; exact h) a ha))
      next hc =>
        rcases List.mem_cons.mp hw with h | h
        · subst h
          rcases List.mem_cons.mp ha with h' | h'
          · subst h'; exact List.mem_cons_self a cs
          · exact List.mem_cons.mpr
              (Or.inr (ih w0 (by rw [hs]; exact List.mem_cons_self w0 ws) a h'))
        · exact List.mem_cons.mpr
            (Or.inr (ih w (by rw [hs]; exact List.mem_cons.mpr (Or.inr h)) a ha))

theorem split_no_sep (sep : Char) (w : Chars) (h : sep ∉ w) :
    splitOnChar sep w = [w] := by
  induction w with
  | nil => simp [splitOnChar]
  | cons c cs ih =>
    have hc : ¬ c = sep := fun hcs => h (by simp [hcs])
    have hcs : sep ∉ cs := fun hm => h (List.mem_cons.mpr (Or.inr hm))
    simp [splitOnChar, ih hcs, hc]

theorem split_append (sep : Char) (w r : Chars) (h : sep ∉ w) :
    splitOnChar sep (w ++ sep :: r) = w :: splitOnChar sep r := by
  induction w with
  | nil =>
    cases hsp : splitOnChar sep r with
    | nil => exact absurd hsp (splitOnChar_ne_nil sep r)
    | cons w0 ws => simp [splitOnChar, hsp]
  | cons c cs ih =>
    have hc : ¬ c = sep := fun hcs => h (by simp [hcs])
    have hcs : sep ∉ cs := fun hm => h (List.mem_cons.mpr (Or.inr hm))
    simp [splitOnChar, ih hcs, hc]

theorem join_split (sep : Char) :
    ∀ ws : List Chars, ws ≠ [] → (∀ w ∈ ws, sep ∉ w) →
      splitOnChar sep (joinSep sep ws) = ws := by
  intro ws
  induction ws with
  | nil => intro h; exact absurd rfl h
  | cons w ws ih =>
    intro _ hws
    cases ws with
    | nil => simpa [joinSep] using split_no_sep sep w (hws w (by simp))
    | cons w' ws' =>
      have hjoin : joinSep sep (w :: w' :: ws') = w ++ sep :: joinSep sep (w' :: ws') := rfl
      rw [hjoin, split_append sep w _ (hws w (by simp))]
      rw [ih (by simp) (fun u hu => hws u (List.mem_cons.mpr (Or.inr hu)))]

theorem join_mem (sep : Char) :
    ∀ ws : List Chars, ∀ c ∈ joinSep sep ws, c = sep ∨ ∃ w ∈ ws, c ∈ w := by
  intro ws
  induction ws with
  | nil => intro c hc; simp [joinSep] at hc
  | cons w ws ih =>
    intro c hc
    cases ws with
    | nil =>
      simp only [joinSep] at hc
      exact Or.inr ⟨w, by simp, hc⟩
    | cons w' ws' =>
      have hjoin : joinSep sep (w :: w' :: ws') = w ++ sep :: joinSep sep (w' :: ws') := rfl
      rw [hjoin] at hc
      rcases List.mem_append.mp hc with h | h
      · exact Or.inr ⟨w, by simp, h⟩
      · rcases List.mem_cons.mp h with h' | h'
        · exact Or.inl h'
        · rcases ih c h' with h'' | ⟨u, hu, hcu⟩
          · exact Or.inl h''
          · exact Or.inr ⟨u, List.mem_cons.mpr (Or.inr hu), hcu⟩

theorem tail_map {α β : Type} (f : α → β) (l : List α) : (l.map f).tail = l.tail.map f := by
  cases l <;> simp

/-! ### Lemmas about the JavaScript-object model -/

theorem setKey_lookup (r : Record) (k v q : Chars) :
    lookupV (setKey r k v) q = if k = q then some v else lookupV r q := by
  induction r with
  | nil => simp [setKey, lookupV]
  | cons p ps ih =>
    by_cases h1 : p.1 = k
    · subst h1
      by_cases h2 : p.1 = q
      · subst h2; simp [setKey, lookupV]
      · simp [setKey, lookupV, h2]
    · by_cases h2 : p.1 = q
      · subst h2
        have hk : ¬ k = p.1 := fun h => h1 h.symm
        simp [setKey, lookupV, h1, hk]
      · simp [setKey, lookupV, h1, h2, ih]

theorem setKey_keys (r : Record) (k v : Chars) :
    keysOf (setKey r k v) = addKey (keysOf r) k := by
  induction r with
  | nil => simp [setKey, keysOf, addKey]
  | cons p ps ih =>
    by_cases h1 : p.1 = k
    · subst h1
      simp [setKey, keysOf, addKey]
    · have hk : ¬ k = p.1 := fun h => h1 h.symm
      simp only [setKey, if_neg h1, keysOf, List.map_cons]
      rw [show List.map Prod.fst (setKey ps k v) = addKey (List.map Prod.fst ps) k from ih]
      by_cases h2 : k ∈ List.map Prod.fst ps
      · simp [addKey, h2, hk]
      · simp [addKey, h2, hk]

theorem setKey_mem (r : Record) (k v : Chars) :
    ∀ q ∈ setKey r k v, q ∈ r ∨ q = (k, v) := by
  induction r with
  | nil => intro q hq; simp [setKey] at hq; exact Or.inr hq
  | cons p ps ih =>
    intro q hq
    by_cases h1 : p.1 = k
    · simp only [setKey, if_pos h1] at hq
      rcases List.mem_cons.mp hq with h | h
      · exact Or.inr h
      · exact Or.inl (List.mem_cons.mpr (Or.inr h))
    · simp only [setKey, if_neg h1] at hq
      rcases List.mem_cons.mp hq with h | h
      · exact Or.inl (List.mem_cons.mpr (Or.inl h))
      · rcases ih q h with h' | h'
        · exact Or.inl (List.mem_cons.mpr (Or.inr h'))
        · exact Or.inr h'

theorem addKey_mem (ks : List Chars) (k q : Chars) :
    q ∈ addKey ks k ↔ q ∈ ks ∨ q = k := by
  by_cases h : k ∈ ks
  · simp only [addKey, if_pos h]
    constructor
    · exact Or.inl
    · rintro (hq | rfl)
      · exact hq
      · exact h
  · simp [addKey, if_neg h]

theorem addKey_nodup (ks : List Chars) (k : Chars) (h : ks.Nodup) :
    (addKey ks k).Nodup := by
  by_cases hk : k ∈ ks
  · simpa [addKey, if_pos hk] using h
  · simp only [addKey, if_neg hk]
    refine List.nodup_append.mpr ⟨h, List.nodup_singleton k, ?_⟩
    intro a ha hak
    simp only [List.mem_singleton] at hak
    subst hak
    exact hk ha

theorem foldl_addKey_mem (ls : List Chars) :
    ∀ (ks : List Chars) (q : Chars), q ∈ List.foldl addKey ks ls ↔ q ∈ ks ∨ q ∈ ls := by
  induction ls with
  | nil => intro ks q; simp
  | cons a ls ih =>
    intro ks q
    simp only [List.foldl_cons]
    rw [ih]
    rw [addKey_mem]
    constructor
    · rintro ((hq | rfl) | hq)
      · exact Or.inl hq
      · exact Or.inr (by simp)
      · exact Or.inr (by simp [hq])
    · rintro (hq | hq)
      · exact Or.inl (Or.inl hq)
      · rcases List.mem_cons.mp hq with rfl | hq'
        · exact Or.inl (Or.inr rfl)
        · exact Or.inr hq'

theorem foldl_addKey_nodup (ls : List Chars) :
    ∀ ks : List Chars, ks.Nodup → (List.foldl addKey ks ls).Nodup := by
  induction ls with
  | nil => intro ks h; simpa using h
  | cons a ls ih => intro ks h; exact ih _ (addKey_nodup ks a h)

theorem dedupKeys_mem (ks : List Chars) (q : Chars) : q ∈ dedupKeys ks ↔ q ∈ ks := by
  unfold dedupKeys
  rw [foldl_addKey_mem]
  simp

theorem dedupKeys_nodup (ks : List Chars) : (dedupKeys ks).Nodup :=
  foldl_addKey_nodup ks [] List.nodup_nil

theorem foldl_addKey_of_disjoint (ls : List Chars) :
    ∀ ks : List Chars, ks.Disjoint ls → ls.Nodup → List.foldl addKey ks ls = ks ++ ls := by
  induction ls with
  | nil => intro ks _ _; simp
  | cons a ls ih =>
    intro ks hdisj hnd
    have ha : a ∉ ks := fun h => hdisj h (by simp)
    simp only [List.foldl_cons, addKey, if_neg ha]
    rw [ih (ks ++ [a]) ?_ (List.Nodup.of_cons hnd)]
    · simp
    · intro x hx hxl
      rcases List.mem_append.mp hx with h | h
      · exact hdisj h (List.mem_cons.mpr (Or.inr hxl))
      · simp only [List.mem_singleton] at h
        subst h
        exact (List.nodup_cons.mp hnd).1 hxl

theorem dedupKeys_of_nodup (ks : List Chars) (h : ks.Nodup) : dedupKeys ks = ks := by
  unfold dedupKeys
  rw [foldl_addKey_of_disjoint ks [] (by simp [List.Disjoint]) h]
  simp

theorem lookup_none_iff (r : Record) (k : Chars) :
    lookupV r k = none ↔ k ∉ keysOf r := by
  induction r with
  | nil => simp [lookupV, keysOf]
  | cons p ps ih =>
    by_cases h : p.1 = k
    · subst h
      simp [lookupV, keysOf]
    · have hk : ¬ k = p.1 := fun hkk => h hkk.symm
      simp only [lookupV, if_neg h, keysOf, List.map_cons, List.mem_cons]
      rw [ih]
      simp [keysOf, hk]

theorem lookup_mem (r : Record) (k v : Chars) (h : lookupV r k = some v) : (k, v) ∈ r := by
  induction r with
  | nil => simp [lookupV] at h
  | cons p ps ih =>
    obtain ⟨pk, pv⟩ := p
    by_cases hp : pk = k
    · simp [lookupV, hp] at h
      rw [← hp, ← h]
      exact List.mem_cons_self _ _
    · simp only [lookupV] at h
      rw [if_neg hp] at h
      exact List.mem_cons.mpr (Or.inr (ih h))

theorem lookup_foldl (ps : List (Chars × Chars)) :
    ∀ (acc : Record) (q : Chars),
      lookupV (List.foldl insEntry acc ps) q =
        match lastVal ps q with
        | some v => some v
        | none => lookupV acc q := by
  induction ps with
  | nil => intro acc q; simp [lastVal]
  | cons p ps ih =>
    intro acc q
    rw [List.foldl_cons, ih]
    cases hl : lastVal ps q with
    | some v => simp [lastVal, hl]
    | none =>
      by_cases hq : p.1 = q
      · simp [lastVal, hl, hq, insEntry, setKey_lookup]
      · simp [lastVal, hl, hq, insEntry, setKey_lookup]

theorem fromEntries_lookup (ps : List (Chars × Chars)) (q : Chars) :
    lookupV (fromEntries ps) q = lastVal ps q := by
  have h := lookup_foldl ps [] q
  cases hl : lastVal ps q with
  | some v => rw [hl] at h; exact h
  | none => rw [hl] at h; exact h

theorem keys_foldl (ps : List (Chars × Chars)) :
    ∀ acc : Record, keysOf (List.foldl insEntry acc ps) =
      List.foldl addKey (keysOf acc) (ps.map Prod.fst) := by
  induction ps with
  | nil => intro acc; simp
  | cons p ps ih =>
    intro acc
    simp only [List.foldl_cons, List.map_cons]
    rw [ih, show keysOf (insEntry acc p) = addKey (keysOf acc) p.1 from setKey_keys acc p.1 p.2]

theorem fromEntries_keys (ps : List (Chars × Chars)) :
    keysOf (fromEntries ps) = dedupKeys (ps.map Prod.fst) := by
  unfold fromEntries dedupKeys
  rw [keys_foldl]
  simp [keysOf]

theorem fromEntries_keys_nodup (ps : List (Chars × Chars)) :
    (keysOf (fromEntries ps)).Nodup := by
  rw [fromEntries_keys]
  exact dedupKeys_nodup _

theorem foldl_insEntry_mem (ps : List (Chars × Chars)) :
    ∀ (acc : Record) (q : Chars × Chars),
      q ∈ List.foldl insEntry acc ps → q ∈ acc ∨ q ∈ ps := by
  induction ps with
  | nil => intro acc q hq; exact Or.inl hq
  | cons p ps ih =>
    intro acc q hq
    rw [List.foldl_cons] at hq
    rcases ih (insEntry acc p) q hq with h | h
    · rcases setKey_mem acc p.1 p.2 q h with h' | h'
      · exact Or.inl h'
      · exact Or.inr (List.mem_cons.mpr (Or.inl h'))
    · exact Or.inr (List.mem_cons.mpr (Or.inr h))

theorem fromEntries_mem (ps : List (Chars × Chars)) (q : Chars × Chars)
    (h : q ∈ fromEntries ps) : q ∈ ps := by
  rcases foldl_insEntry_mem ps [] q h with h' | h'
  · simp at h'
  · exact h'

theorem lastVal_none (ps : List (Chars × Chars)) (k : Chars)
    (h : k ∉ ps.map Prod.fst) : lastVal ps k = none := by
  induction ps with
  | nil => simp [lastVal]
  | cons p ps ih =>
    simp only [List.map_cons, List.mem_cons] at h
    push_neg at h
    have hne : ¬ p.1 = k := fun hp => h.1 hp.symm
    simp [lastVal, ih h.2, hne]

theorem lastVal_isSome (ps : List (Chars × Chars)) (k : Chars)
    (h : k ∈ ps.map Prod.fst) : ∃ v, lastVal ps k = some v := by
  induction ps with
  | nil => simp at h
  | cons p ps ih =>
    cases hl : lastVal ps k with
    | some v => exact ⟨v, by simp [lastVal, hl]⟩
    | none =>
      simp only [List.map_cons, List.mem_cons] at h
      rcases h with h | h
      · exact ⟨p.2, by simp [lastVal, hl, h.symm]⟩
      · obtain ⟨v, hv⟩ := ih h
        rw [hv] at hl
        exact absurd hl (by simp)

theorem lastVal_map_self (g : Chars → Chars) (k : Chars) :
    ∀ H : List Chars,
      lastVal (H.map (fun h => (h, g h))) k = if k ∈ H then some (g k) else none := by
  intro H
  induction H with
  | nil => simp [lastVal]
  | cons h hs ih =>
    simp only [List.map_cons, lastVal, ih]
    by_cases hk : k ∈ hs
    · simp [hk]
    · by_cases hh : h = k
      · subst hh
        simp [hk]
      · have hk' : ¬ k = h := fun hkh => hh hkh.symm
        simp [hk, hh, hk']

theorem zip_map_self (g : Chars → Chars) :
    ∀ H : List Chars, H.zip (H.map g) = H.map (fun h => (h, g h)) := by
  intro H
  induction H with
  | nil => simp
  | cons h hs ih => simp [ih]

theorem record_ext (r1 : Record) :
    ∀ r2 : Record, (keysOf r1).Nodup → keysOf r1 = keysOf r2 →
      (∀ k, lookupV r1 k = lookupV r2 k) → r1 = r2 := by
  induction r1 with
  | nil =>
    intro r2 _ hk _
    have h2 : List.map Prod.fst r2 = [] := by
      simpa [keysOf] using hk.symm
    exact (List.map_eq_nil_iff.mp h2).symm
  | cons p ps ih =>
    intro r2 hnd hk hl
    cases r2 with
    | nil => simp [keysOf] at hk
    | cons q qs =>
      simp only [keysOf, List.map_cons, List.cons.injEq] at hk
      obtain ⟨hk1, hk2⟩ := hk
      have hval : p.2 = q.2 := by
        have h1 := hl p.1
        simp only [lookupV, if_pos rfl] at h1
        rw [if_pos hk1.symm] at h1
        exact Option.some.inj h1
      have hnd' : (keysOf ps).Nodup := (List.nodup_cons.mp (by simpa [keysOf] using hnd)).2
      have hpn : p.1 ∉ keysOf ps := (List.nodup_cons.mp (by simpa [keysOf] using hnd)).1
      have htl : ps = qs := by
        apply ih qs hnd' hk2
        intro k
        by_cases hkp : k = p.1
        · have hpn' : k ∉ keysOf ps := by rw [hkp]; exact hpn
          have hn1 : lookupV ps k = none := (lookup_none_iff ps k).mpr hpn'
          have hqn : k ∉ keysOf qs := by
            simp only [keysOf] at hpn' ⊢
            rw [← hk2]
            exact hpn'
          have hn2 : lookupV qs k = none := (lookup_none_iff qs k).mpr hqn
          rw [hn1, hn2]
        · have h1 := hl k
          have hp1 : ¬ p.1 = k := fun hh => hkp hh.symm
          have hq1 : ¬ q.1 = k := by rw [← hk1]; exact hp1
          simpa [lookupV, hp1, hq1] using h1
      have hp : p = q := by
        obtain ⟨pa, pb⟩ := p
        obtain ⟨qa, qb⟩ := q
        simp only at hk1 hval
        rw [hk1, hval]
      rw [hp, htl]

theorem reconstruct (H : List Chars) (row : List Chars) (hlen : row.length = H.length) :
    fromEntries (H.zip (H.map (fun h => getValD (fromEntries (H.zip row)) h))) =
      fromEntries (H.zip row) := by
  have hHr : H.length ≤ row.length := Nat.le_of_eq hlen.symm
  have hHg : H.length ≤ (H.map (fun h => getValD (fromEntries (H.zip row)) h)).length := by
    simp
  apply record_ext
  · exact fromEntries_keys_nodup _
  · rw [fromEntries_keys, fromEntries_keys, List.map_fst_zip _ _ hHg,
      List.map_fst_zip _ _ hHr]
  · intro k
    rw [fromEntries_lookup, fromEntries_lookup,
      zip_map_self (fun h => getValD (fromEntries (H.zip row)) h) H, lastVal_map_self]
    by_cases hk : k ∈ H
    · have hkz : k ∈ (H.zip row).map Prod.fst := by
        rw [List.map_fst_zip _ _ hHr]; exact hk
      obtain ⟨v, hv⟩ := lastVal_isSome (H.zip row) k hkz
      rw [if_pos hk, hv]
      have : getValD (fromEntries (H.zip row)) k = v := by
        unfold getValD
        rw [fromEntries_lookup, hv]
        rfl
      rw [this]
    · have hkz : k ∉ (H.zip row).map Prod.fst := by
        rw [List.map_fst_zip _ _ hHr]; exact hk
      rw [if_neg hk, lastVal_none (H.zip row) k hkz]

/-! ### Structural lemmas about the parser pipeline -/

theorem linesOf_ne_nil (csv : Chars) : linesOf csv ≠ [] :=
  splitOnChar_ne_nil '\n' csv

theorem headI_mem_linesOf (csv : Chars) : (linesOf csv).headI ∈ linesOf csv := by
  cases h : linesOf csv with
  | nil => exact absurd h (linesOf_ne_nil csv)
  | cons l ls => simp

theorem headersOf_eq (csv : Chars) :
    headersOf csv = splitOnChar ';' ((linesOf csv).headI) := by
  unfold headersOf rowsOf
  cases h : linesOf csv with
  | nil => exact absurd h (linesOf_ne_nil csv)
  | cons l ls => simp

theorem headersOf_ne_nil (csv : Chars) : headersOf csv ≠ [] := by
  rw [headersOf_eq]
  exact splitOnChar_ne_nil ';' _

theorem bodyOf_eq (csv : Chars) :
    bodyOf csv = ((linesOf csv).tail).map (splitOnChar ';') := by
  unfold bodyOf rowsOf
  exact tail_map _ _

theorem headers_clean (csv : Chars) :
    ∀ h ∈ headersOf csv, ';' ∉ h ∧ '\n' ∉ h := by
  intro h hh
  rw [headersOf_eq] at hh
  refine ⟨split_sep_not_mem ';' _ h hh, ?_⟩
  intro hnl
  have hsub := split_chars_sub ';' _ h hh '\n' hnl
  exact split_sep_not_mem '\n' csv _ (headI_mem_linesOf csv) hsub

theorem parse_mem_form (csv : Chars) :
    ∀ r ∈ parse csv, ∃ row ∈ bodyOf csv,
      row.length = (headersOf csv).length ∧ r = fromEntries ((headersOf csv).zip row) := by
  intro r hr
  unfold parse at hr
  obtain ⟨row, hrow, hre⟩ := List.mem_map.mp hr
  obtain ⟨hmem, hlen⟩ := List.mem_filter.mp hrow
  exact ⟨row, hmem, of_decide_eq_true hlen, hre.symm⟩

theorem parse_entry_clean (csv : Chars) :
    ∀ r ∈ parse csv, ∀ p ∈ r,
      (';' ∉ p.1 ∧ '\n' ∉ p.1) ∧ (';' ∉ p.2 ∧ '\n' ∉ p.2) := by
  intro r hr p hp
  obtain ⟨row, hrow, hlen, hre⟩ := parse_mem_form csv r hr
  rw [hre] at hp
  have hpz := fromEntries_mem _ _ hp
  obtain ⟨hk, hv⟩ := List.of_mem_zip hpz
  rw [bodyOf_eq] at hrow
  obtain ⟨line, hline, hrowe⟩ := List.mem_map.mp hrow
  have hlmem : line ∈ linesOf csv := List.mem_of_mem_tail hline
  have hnl : '\n' ∉ line := split_sep_not_mem '\n' csv line hlmem
  refine ⟨⟨(headers_clean csv p.1 hk).1, (headers_clean csv p.1 hk).2⟩, ?_, ?_⟩
  · rw [← hrowe] at hv
    exact split_sep_not_mem ';' line p.2 hv
  · intro hmem
    rw [← hrowe] at hv
    exact hnl (split_chars_sub ';' line p.2 hv '\n' hmem)

theorem keys_parse (csv : Chars) :
    ∀ r ∈ parse csv, keysOf r = dedupKeys (headersOf csv) := by
  intro r hr
  obtain ⟨row, _, hlen, hre⟩ := parse_mem_form csv r hr
  rw [hre, fromEntries_keys, List.map_fst_zip _ _ (Nat.le_of_eq hlen.symm)]

theorem dedupKeys_length_lt (ks : List Chars) (h : ¬ ks.Nodup) :
    (dedupKeys ks).length < ks.length := by
  have h1 : (dedupKeys ks).toFinset.card = (dedupKeys ks).length :=
    List.toFinset_card_of_nodup (dedupKeys_nodup ks)
  have h2 : (dedupKeys ks).toFinset = ks.toFinset := by
    ext a
    simp [List.mem_toFinset, dedupKeys_mem]
  have h3 : ks.toFinset.card = ks.dedup.length := List.card_toFinset ks
  have h4 : ks.dedup.length ≤ ks.length := (List.dedup_sublist ks).length_le
  have h5 : ks.dedup.length ≠ ks.length := by
    intro he
    apply h
    have hde := (List.dedup_sublist ks).eq_of_length he
    rw [← hde]
    exact List.nodup_dedup ks
  have h6 : (dedupKeys ks).length = ks.dedup.length := by rw [← h1, h2, h3]
  omega

/-! ### Claim C2: row selection of the parser -/

/-- C2: for every input text, the parser's output consists of exactly those
non-header lines whose number of delimiter-separated values equals the
header's field count, kept in original line order with duplicates
preserved, each turned into the record pairing header names with the
line's values; every other line is dropped.  The parser is a total
function (`parse : Chars → List Record`), so no input raises an error and
no dropped-row count is reported. -/
theorem parser_row_selection (csv : Chars) :
    parse csv =
      (((linesOf csv).tail).filter
        (fun l => (splitOnChar ';' l).length = (headersOf csv).length)).map
        (fun l => fromEntries ((headersOf csv).zip (splitOnChar ';' l))) := by
  unfold parse
  rw [bodyOf_eq, List.filter_map, List.map_map]
  rfl

/-! ### Claim C3: length bound and key count -/

/-- C3 counterexample: on the input `"a;a\n1;2"` the header has two fields
but the single returned record has exactly one key, because
`Object.fromEntries` collapses the duplicated field name; the claim that
every returned record has exactly `header.length` keys is false. -/
theorem parser_key_count_cex :
    (parse dupCsv).length = 1 ∧ (headersOf dupCsv).length = 2 ∧
      (keysOf ((parse dupCsv).headI)).length = 1 := by decide

/-- C3 amended: for every input text, the number of records is at most the
number of lines minus one (the header line never becomes a record), and —
provided the header's field names are pairwise distinct — every returned
record has exactly `header.length` keys. -/
theorem parser_length_and_keys (csv : Chars) :
    (parse csv).length ≤ (linesOf csv).length - 1 ∧
    ((headersOf csv).Nodup →
      ∀ r ∈ parse csv, (keysOf r).length = (headersOf csv).length) := by
  constructor
  · have h1 : (parse csv).length ≤ (bodyOf csv).length := by
      unfold parse
      rw [List.length_map]
      exact List.length_filter_le _ _
    have h2 : (bodyOf csv).length = (linesOf csv).length - 1 := by
      unfold bodyOf rowsOf
      rw [List.length_tail, List.length_map]
    omega
  · intro hnd r hr
    rw [keys_parse csv r hr, dedupKeys_of_nodup _ hnd]

theorem parser_length_and_keys_witness :
    (headersOf okCsv).Nodup ∧
      ∀ r ∈ parse okCsv, (keysOf r).length = (headersOf okCsv).length :=
  ⟨by decide, (parser_length_and_keys okCsv).2 (by decide)⟩

/-! ### Claim C9: duplicated header names -/

/-- C9: if the header repeats a field name, every returned record has
strictly fewer keys than the header has fields, and each record's lookup
at any key yields the value of the last header-row pair carrying that key
— i.e. the value at the name's last position in the originating row. -/
theorem duplicate_header_last_wins (csv : Chars) (hdup : ¬ (headersOf csv).Nodup) :
    ∀ r ∈ parse csv,
      (keysOf r).length < (headersOf csv).length ∧
      ∃ row ∈ bodyOf csv, row.length = (headersOf csv).length ∧
        r = fromEntries ((headersOf csv).zip row) ∧
        ∀ k, lookupV r k = lastVal ((headersOf csv).zip row) k := by
  intro r hr
  obtain ⟨row, hrow, hlen, hre⟩ := parse_mem_form csv r hr
  constructor
  · rw [keys_parse csv r hr]
    exact dedupKeys_length_lt _ hdup
  · exact ⟨row, hrow, hlen, hre, fun k => by rw [hre]; exact fromEntries_lookup _ k⟩

theorem duplicate_header_last_wins_witness :
    ¬ (headersOf dupCsv).Nodup ∧
      ∀ r ∈ parse dupCsv,
        (keysOf r).length < (headersOf dupCsv).length ∧
        ∃ row ∈ bodyOf dupCsv, row.length = (headersOf dupCsv).length ∧
          r = fromEntries ((headersOf dupCsv).zip row) ∧
          ∀ k, lookupV r k = lastVal ((headersOf dupCsv).zip row) k :=
  ⟨by decide, duplicate_header_last_wins dupCsv (by decide)⟩

/-! ### Claim C10: field values contain no delimiter characters -/

/-- C10: for every input text, every field value in every returned record
contains neither the newline character nor the delimiter `;` — values
arise only from splitting on `;` the lines obtained by splitting on
newlines. -/
theorem record_values_delimiter_free (csv : Chars) :
    ∀ r ∈ parse csv, ∀ p ∈ r, '\n' ∉ p.2 ∧ ';' ∉ p.2 := by
  intro r hr p hp
  exact ⟨(parse_entry_clean csv r hr p hp).2.2, (parse_entry_clean csv r hr p hp).2.1⟩

theorem record_values_delimiter_free_witness :
    pairRec ∈ parse pairCsv ∧ pairEntry ∈ pairRec ∧
      ('\n' ∉ pairEntry.2 ∧ ';' ∉ pairEntry.2) :=
  ⟨by decide, by decide,
    record_values_delimiter_free pairCsv pairRec (by decide) pairEntry (by decide)⟩

/-! ### Claim C8 and C4: the parser never fails -/

/-- C8: the parser itself never fails: splitting on newlines always yields
at least one line, so a header always exists; for the empty string the
header is the single empty field name, the record list is empty, and the
handler responds with a success envelope whose `total_registros` is `0`
rather than an error. -/
theorem parser_never_fails :
    (∀ s : Chars, 0 < (linesOf s).length) ∧
    headersOf [] = [[]] ∧
    parse [] = [] ∧
    (firesRecents (Except.ok exListing) (fun _ => Except.ok [])).1 =
      HttpResp.json200 ⟨fonteMsg, listUrl ++ exFile, 0, []⟩ := by
  refine ⟨?_, by decide, by decide, by decide⟩
  intro s
  cases h : linesOf s with
  | nil => exact absurd h (linesOf_ne_nil s)
  | cons l ls => simp

/-- C4 counterexample: on the empty payload the code does not fail at all —
`"".split("\n")` yields `[""]`, so the header is the single empty field
name, the record list is empty, and the handler answers `200` with
`total_registros = 0`; no `EmptyPayloadError` exists anywhere in the code
path, refuting the claim that the parser fails on an input with no
lines. -/
theorem empty_payload_cex :
    parse [] = [] ∧ headersOf [] = [[]] ∧
    (firesRecents (Except.ok exListing) (fun _ => Except.ok [])).1 =
      HttpResp.json200 ⟨fonteMsg, listUrl ++ exFile, 0, []⟩ := by
  refine ⟨by decide, by decide, by decide⟩

/-- C4 amended: for the empty input the parser succeeds instead of
failing: the header is the single empty field name and the record
sequence is empty. -/
theorem empty_payload_amended : headersOf [] = [[]] ∧ parse [] = [] := by decide

theorem getLatestCsvUrl_ok_ne (html url : Chars)
    (hg : getLatestCsvUrl html = Except.ok url) : url ≠ listUrl := by
  unfold getLatestCsvUrl at hg
  split at hg
  · simp at hg
  next f hl =>
    simp only [Except.ok.injEq] at hg
    subst hg
    have hfm : f ∈ (scanMatches html).getLast? := by rw [Option.mem_def]; exact hl
    obtain ⟨hne, hfe⟩ := List.mem_getLast?_eq_getLast hfm
    have hmem : f ∈ scanMatches html := by rw [hfe]; exact List.getLast_mem hne
    obtain ⟨hp, -⟩ := scanMatches_sound html f hmem
    have hf : f ≠ [] := pattern_ne_nil f hp
    intro hcontra
    have hl2 := congrArg List.length hcontra
    rw [List.length_append] at hl2
    have : f.length = 0 := by omega
    exact hf (List.length_eq_zero.mp this)

/-! ### Claim C7: the request boundary -/

/-- C7: for every request to `GET /fires/recents` — modelled by arbitrary
outcomes of the two outbound fetches — the response is either the success
envelope (whose `fonte` is the static label and whose `total_registros`
equals the length of `dados`) or the `500` body produced by the single
request-boundary catch; no error escapes.  Moreover the fetch trace has no
duplicates and at most two entries, so no fetch is retried. -/
theorem handler_response_dichotomy (fl : Except Chars Chars)
    (fc : Chars → Except Chars Chars) :
    ((∃ b, (firesRecents fl fc).1 = HttpResp.json200 b ∧
        b.fonte = fonteMsg ∧ b.total_registros = b.dados.length) ∨
      (firesRecents fl fc).1 = HttpResp.json500 errMsg) ∧
    (firesRecents fl fc).2.Nodup ∧ (firesRecents fl fc).2.length ≤ 2 := by
  unfold firesRecents
  cases fl with
  | error e => exact ⟨Or.inr rfl, by simp, by simp⟩
  | ok html =>
    dsimp only
    cases hg : getLatestCsvUrl html with
    | error e => exact ⟨Or.inr rfl, by simp, by simp⟩
    | ok url =>
      dsimp only
      have hurl : listUrl ≠ url := Ne.symm (getLatestCsvUrl_ok_ne html url hg)
      cases hfc : fc url with
      | error e => exact ⟨Or.inr rfl, by simp [hurl], by simp⟩
      | ok csv =>
        exact ⟨Or.inl ⟨⟨fonteMsg, url, (parse csv).length, parse csv⟩, rfl, rfl, rfl⟩,
          by simp [hurl], by simp⟩

/-! ### Round-trip machinery -/

theorem getValD_clean (csv : Chars) (r : Record) (hr : r ∈ parse csv) (k : Chars) :
    ';' ∉ getValD r k ∧ '\n' ∉ getValD r k := by
  unfold getValD
  cases hl : lookupV r k with
  | none => simp
  | some v =>
    have hmem := lookup_mem r k v hl
    have hclean := (parse_entry_clean csv r hr (k, v) hmem).2
    simpa using hclean

theorem headerLine_no_newline (csv : Chars) :
    '\n' ∉ joinSep ';' (headersOf csv) := by
  intro h
  rcases join_mem ';' (headersOf csv) '\n' h with he | ⟨w, hw, hcw⟩
  · simp at he
  · exact (headers_clean csv w hw).2 hcw

theorem rowLine_no_newline (csv : Chars) (r : Record) (hr : r ∈ parse csv) :
    '\n' ∉ joinSep ';' ((headersOf csv).map (getValD r)) := by
  intro h
  rcases join_mem ';' _ '\n' h with he | ⟨w, hw, hcw⟩
  · simp at he
  · obtain ⟨k, _, hwk⟩ := List.mem_map.mp hw
    rw [← hwk] at hcw
    exact (getValD_clean csv r hr k).2 hcw

theorem rowLine_split (csv : Chars) (r : Record) (hr : r ∈ parse csv) :
    splitOnChar ';' (joinSep ';' ((headersOf csv).map (getValD r))) =
      (headersOf csv).map (getValD r) := by
  apply join_split
  · simp [headersOf_ne_nil csv]
  · intro w hw
    obtain ⟨k, _, hwk⟩ := List.mem_map.mp hw
    rw [← hwk]
    exact (getValD_clean csv r hr k).1

theorem serial_lines (csv : Chars) :
    linesOf (serializeT (headersOf csv) (parse csv)) =
      joinSep ';' (headersOf csv) ::
        (parse csv).map (fun r => joinSep ';' ((headersOf csv).map (getValD r))) := by
  unfold linesOf serializeT
  apply join_split
  · simp
  · intro w hw
    rcases List.mem_cons.mp hw with h | h
    · rw [h]
      exact headerLine_no_newline csv
    · obtain ⟨r, hr, hwr⟩ := List.mem_map.mp h
      rw [← hwr]
      exact rowLine_no_newline csv r hr

theorem serial_headers (csv : Chars) :
    headersOf (serializeT (headersOf csv) (parse csv)) = headersOf csv := by
  rw [headersOf_eq, serial_lines]
  simp only [List.headI_cons]
  exact join_split ';' (headersOf csv) (headersOf_ne_nil csv)
    (fun w hw => (headers_clean csv w hw).1)

theorem serial_body (csv : Chars) :
    bodyOf (serializeT (headersOf csv) (parse csv)) =
      (parse csv).map (fun r => (headersOf csv).map (getValD r)) := by
  rw [bodyOf_eq, serial_lines]
  simp only [List.tail_cons, List.map_map]
  exact List.map_congr_left (fun r hr => rowLine_split csv r hr)

/-! ### Claim C5: the round-trip property -/

/-- C5: for every record sequence produced by the parser, serializing it
back to delimited text using the original header — the header line, then
one line per record with the values joined by the delimiter in header
order — and re-parsing yields the same header and the same record
sequence, and no row of the serialized text is dropped for field-count
mismatch (the field-count filter keeps every serialized row). -/
theorem parser_roundtrip (csv : Chars) :
    headersOf (serializeT (headersOf csv) (parse csv)) = headersOf csv ∧
    parse (serializeT (headersOf csv) (parse csv)) = parse csv ∧
    (bodyOf (serializeT (headersOf csv) (parse csv))).filter
        (fun row => row.length = (headersOf csv).length) =
      bodyOf (serializeT (headersOf csv) (parse csv)) := by
  have hfilter :
      (bodyOf (serializeT (headersOf csv) (parse csv))).filter
          (fun row => row.length = (headersOf csv).length) =
        bodyOf (serializeT (headersOf csv) (parse csv)) := by
    apply List.filter_eq_self.mpr
    intro row hrow
    rw [serial_body] at hrow
    obtain ⟨r, _, hre⟩ := List.mem_map.mp hrow
    rw [← hre]
    simp
  refine ⟨serial_headers csv, ?_, hfilter⟩
  conv_lhs => rw [parse]
  rw [serial_headers, hfilter, serial_body, List.map_map]
  have hmap : ∀ r ∈ parse csv,
      fromEntries ((headersOf csv).zip ((headersOf csv).map (getValD r))) = r := by
    intro r hr
    obtain ⟨row, _, hlen, hre⟩ := parse_mem_form csv r hr
    rw [hre]
    exact reconstruct (headersOf csv) row hlen
  calc (parse csv).map
        ((fun row => fromEntries ((headersOf csv).zip row)) ∘
          fun r => (headersOf csv).map (getValD r)) =
      (parse csv).map id := List.map_congr_left (fun r hr => hmap r hr)
    _ = parse csv := List.map_id _

end Ignis
